import Mathlib

/-!
Verification of the pdf-site-extractor crawler.

Shallow embedding of `src/pdf_crawler.py` (class `PDFCrawler`),
`src/simple_pdf_finder.py` (`find_all_pdfs`) and the download loops of
`src/pdf_crawler.py` / `src/download_pdfs.py`.

Machine strings are Lean `String`s; Python `set`s become `Finset String`;
the `collections.deque` frontier becomes a `List`; the network is an
oracle `fetch : String → Option (List String)` returning, for a page URL,
the list of absolute link targets its anchors resolve to via `urljoin`
(`none` models an exception raised by `session.get` /
`raise_for_status`).  The loop is driven by an explicit fuel parameter;
termination is then a theorem about sufficient fuel.
-/

/-! ### Models of the Python string builtins used by the sources -/

/-- Model of Python `str.lower()`: lower-case every character. -/
def pyLower (s : String) : String := ⟨s.data.map Char.toLower⟩

/-- Model of Python `s.endswith(t)`: `t` is a literal suffix of `s`. -/
def pyEndsWith (s t : String) : Bool := t.data.isSuffixOf s.data

/-- Model of Python `s.startswith(t)`: `t` is a literal prefix of `s`. -/
def pyStartsWith (s t : String) : Bool := t.data.isPrefixOf s.data

/-- Model of `full_url.split('#')[0]` (pdf_crawler.py line 63,
simple_pdf_finder.py line 42): everything before the first `#`. -/
def stripFragment (s : String) : String :=
  ⟨s.data.takeWhile (fun c => c ≠ '#')⟩

/-! ### Model of `urllib.parse.urlparse` -/

/-- Result of `urllib.parse.urlparse` (the components the sources read). -/
structure UrlParts where
  scheme : String
  netloc : String
  path : String
  query : String
  frag : String

/-- Split a character list at the first occurrence of the separator
sequence `sep`, returning the parts before and after it. -/
def splitAtSeq (sep : List Char) : List Char → Option (List Char × List Char)
  | [] => none
  | c :: rest =>
    if sep.isPrefixOf (c :: rest) then some ([], (c :: rest).drop sep.length)
    else
      match splitAtSeq sep rest with
      | some (a, b) => some (c :: a, b)
      | none => none

/-- Model of `urllib.parse.urlparse`, faithful on the absolute
`scheme://netloc/path?query#fragment` URLs this crawler manipulates
(every URL the sources parse is the output of `urljoin` against an
absolute base). -/
def urlparse (s : String) : UrlParts :=
  let cs := s.data
  let noFrag := cs.takeWhile (fun c => c ≠ '#')
  let frag := (cs.dropWhile (fun c => c ≠ '#')).drop 1
  let noQry := noFrag.takeWhile (fun c => c ≠ '?')
  let qry := (noFrag.dropWhile (fun c => c ≠ '?')).drop 1
  match splitAtSeq [':', '/', '/'] noQry with
  | some (sch, rest) =>
    { scheme := ⟨sch⟩, netloc := ⟨rest.takeWhile (fun c => c ≠ '/')⟩,
      path := ⟨rest.dropWhile (fun c => c ≠ '/')⟩, query := ⟨qry⟩, frag := ⟨frag⟩ }
  | none =>
    { scheme := "", netloc := "", path := ⟨noQry⟩, query := ⟨qry⟩, frag := ⟨frag⟩ }

/-! ### The classifiers (pdf_crawler.py lines 29–46) -/

/-- Model of `PDFCrawler.is_pdf` (lines 44–46): `url.lower().endswith('.pdf')`. -/
def is_pdf (url : String) : Bool := pyEndsWith (pyLower url) ".pdf"

/-- Model of `PDFCrawler.is_valid_url` (lines 29–42), with `base_domain` and the
base path precomputed from `base_url` as in `__init__` / line 38. -/
def is_valid_url (baseDomain basePath url : String) : Bool :=
  let parsed := urlparse url
  if parsed.netloc ≠ baseDomain then false
  else if ¬ pyStartsWith parsed.path basePath then false
  else true

/-! ### The BFS crawler of pdf_crawler.py (`PDFCrawler.crawl`, lines 77–108) -/

/-- Model of `set.add` on the local `links` set of `get_page_links`
(line 55 / line 69), keeping first-insertion order. -/
def insertNew (l : List String) (x : String) : List String :=
  if x ∈ l then l else l ++ [x]

/-- The anchor loop of `PDFCrawler.get_page_links` (lines 58–69).  Each
`href` in the list is the absolute URL `urljoin(url, href)`; the loop
strips the fragment, adds PDF hits to `pdf_urls` and in-scope pages to
the local `links` set.  The accumulator is `(pdf_urls, links)`. -/
def processHrefs (baseDomain basePath : String) :
    List String → Finset String × List String → Finset String × List String
  | [], acc => acc
  | href :: rest, (pdfs, links) =>
    let full := stripFragment href
    if is_pdf full then
      processHrefs baseDomain basePath rest (insert full pdfs, links)
    else if is_valid_url baseDomain basePath full then
      processHrefs baseDomain basePath rest (pdfs, insertNew links full)
    else
      processHrefs baseDomain basePath rest (pdfs, links)

/-- The state mutated by `PDFCrawler.crawl`: `visited_urls`, `pdf_urls`
and the frontier deque of `(url, depth)` pairs.  `fetched` is a ghost
log of the URLs passed to `session.get` (line 51), in call order. -/
structure CrawlState where
  visited : Finset String
  pdfs : Finset String
  queue : List (String × Nat)
  fetched : List String

/-- The link loop of `PDFCrawler.crawl` (lines 98–101): every link not
yet visited is added to `visited_urls` and appended to the frontier at
`depth + 1`. -/
def enqueueNew (depth : Nat) :
    List String → Finset String × List (String × Nat) →
      Finset String × List (String × Nat)
  | [], acc => acc
  | link :: rest, (visited, queue) =>
    if link ∈ visited then enqueueNew depth rest (visited, queue)
    else enqueueNew depth rest (insert link visited, queue ++ [(link, depth + 1)])

/-- One iteration of the `while queue` loop of `PDFCrawler.crawl`
(lines 86–104): pop `(url, depth)`; skip it when `depth > max_depth`;
otherwise call `get_page_links` (a failed fetch yields no links, lines
73–75) and enqueue the fresh links.  On an empty queue the state is
returned unchanged. -/
def crawlStep (fetch : String → Option (List String))
    (baseDomain basePath : String) (maxDepth : Nat) (st : CrawlState) :
    CrawlState :=
  match st.queue with
  | [] => st
  | (url, depth) :: rest =>
    if depth > maxDepth then { st with queue := rest }
    else
      match fetch url with
      | none => { st with queue := rest, fetched := st.fetched ++ [url] }
      | some hrefs =>
        let pl := processHrefs baseDomain basePath hrefs (st.pdfs, [])
        let vq := enqueueNew depth pl.2 (st.visited, rest)
        { visited := vq.1, pdfs := pl.1, queue := vq.2,
          fetched := st.fetched ++ [url] }

/-- Iteration of the crawl loop `fuel` times. -/
def crawlN (fetch : String → Option (List String))
    (baseDomain basePath : String) (maxDepth : Nat) :
    Nat → CrawlState → CrawlState
  | 0, st => st
  | fuel + 1, st =>
    crawlN fetch baseDomain basePath maxDepth fuel
      (crawlStep fetch baseDomain basePath maxDepth st)

/-- Lines 83–84 of `PDFCrawler.crawl`: the frontier seeded with
`(base_url, 0)` and `base_url` added to `visited_urls` — note that the
start URL is stored without fragment stripping. -/
def initCrawl (baseUrl : String) : CrawlState :=
  { visited := {baseUrl}, pdfs := ∅, queue := [(baseUrl, 0)], fetched := [] }

/-- A whole crawl run: `base_domain` and the base path are derived from
`base_url` by `urlparse` (lines 19 and 38). -/
def crawlRun (fetch : String → Option (List String)) (baseUrl : String)
    (maxDepth fuel : Nat) : CrawlState :=
  crawlN fetch (urlparse baseUrl).netloc (urlparse baseUrl).path maxDepth fuel
    (initCrawl baseUrl)

/-! ### The BFS crawler of simple_pdf_finder.py (`find_all_pdfs`, lines 14–59) -/

/-- The state of `find_all_pdfs`: `visited`, `pdfs`, the frontier deque
of bare URLs, and the ghost log of URLs passed to `session.get`. -/
structure FinderState where
  visited : Finset String
  pdfs : Finset String
  queue : List String
  fetched : List String

/-- The anchor loop of `find_all_pdfs` (lines 41–54): strip the
fragment, collect PDF hits, and append in-scope links not in `visited`
to the main deque.  `visited` is the set as of this page's processing
(it is not updated inside the loop, so one page can append a link
twice). -/
def finderHrefs (baseDomain basePath : String) (visited : Finset String) :
    List String → Finset String × List String → Finset String × List String
  | [], acc => acc
  | href :: rest, (pdfs, queue) =>
    let full := stripFragment href
    if is_pdf full then
      finderHrefs baseDomain basePath visited rest (insert full pdfs, queue)
    else if (urlparse full).netloc = baseDomain ∧
        pyStartsWith (urlparse full).path basePath = true ∧ full ∉ visited then
      finderHrefs baseDomain basePath visited rest (pdfs, queue ++ [full])
    else
      finderHrefs baseDomain basePath visited rest (pdfs, queue)

/-- One iteration of the `while queue` loop of `find_all_pdfs` (lines
29–57): pop `url`; skip it when already visited; otherwise add it to
`visited` (line 34, before the fetch), fetch it, and process its
anchors; a raised fetch leaves `pdfs` and the queue unchanged. -/
def finderStep (fetch : String → Option (List String))
    (baseDomain basePath : String) (st : FinderState) : FinderState :=
  match st.queue with
  | [] => st
  | url :: rest =>
    if url ∈ st.visited then { st with queue := rest }
    else
      match fetch url with
      | none =>
        { visited := insert url st.visited, pdfs := st.pdfs, queue := rest,
          fetched := st.fetched ++ [url] }
      | some hrefs =>
        let pq := finderHrefs baseDomain basePath (insert url st.visited)
          hrefs (st.pdfs, rest)
        { visited := insert url st.visited, pdfs := pq.1, queue := pq.2,
          fetched := st.fetched ++ [url] }

/-- Iteration of the finder loop `fuel` times. -/
def finderN (fetch : String → Option (List String))
    (baseDomain basePath : String) : Nat → FinderState → FinderState
  | 0, st => st
  | fuel + 1, st =>
    finderN fetch baseDomain basePath fuel
      (finderStep fetch baseDomain basePath st)

/-- Lines 16–18 of `find_all_pdfs`: empty `visited` and `pdfs`, the
frontier seeded with the bare `base_url`. -/
def initFinder (baseUrl : String) : FinderState :=
  { visited := ∅, pdfs := ∅, queue := [baseUrl], fetched := [] }

/-- A whole `find_all_pdfs` run: `base_domain` and `base_path` are
derived from `base_url` by `urlparse` (lines 19–20). -/
def finderRun (fetch : String → Option (List String)) (baseUrl : String)
    (fuel : Nat) : FinderState :=
  finderN fetch (urlparse baseUrl).netloc (urlparse baseUrl).path fuel
    (initFinder baseUrl)

/-! ### The download loop (pdf_crawler.py lines 131–154,
download_pdfs.py lines 66–77) -/

/-- The per-item download loop: `dl url` is `.ok contents` when the GET
and the file write succeed, `.error e` when any of it raises (the
`except` arm records nothing and the loop continues with the next URL).
Returns the written files `(url, contents)` and the per-item outcomes
`(url, none)` for success, `(url, some e)` for a recorded failure. -/
def download_pdfs (dl : String → Except String String) :
    List String → List (String × String) × List (String × Option String)
  | [] => ([], [])
  | url :: rest =>
    let r := download_pdfs dl rest
    match dl url with
    | .ok contents => ((url, contents) :: r.1, (url, none) :: r.2)
    | .error e => (r.1, (url, some e) :: r.2)

/-! ### Concrete web graphs used as test fixtures -/

/-- Two pages: the root `http://h/s` links to `http://h/s/a`, which has
no links. -/
def exFetchA : String → Option (List String)
  | "http://h/s" => some ["http://h/s/a"]
  | _ => some []

/-- The page `http://h/p` links to itself; its fragmented alias serves
the same links (a fetch ignores the fragment, as HTTP does). -/
def exFetchB : String → Option (List String)
  | "http://h/p" => some ["http://h/p"]
  | "http://h/p#f" => some ["http://h/p"]
  | _ => some []

/-- A diamond: the root links to `a` and `b`, both of which link to
`c`. -/
def exFetchC : String → Option (List String)
  | "http://h/s" => some ["http://h/s/a", "http://h/s/b"]
  | "http://h/s/a" => some ["http://h/s/c"]
  | "http://h/s/b" => some ["http://h/s/c"]
  | _ => some []

/-- A download oracle for which exactly `http://h/bad.pdf` fails. -/
def exDl : String → Except String String := fun u =>
  if u = "http://h/bad.pdf" then .error "404" else .ok "bytes"

/-! ### The link graph induced by the crawler's own extraction -/

/-- Predicate: `v` is a page link of page `u` — some anchor of `u` resolves (after
fragment stripping) to `v`, and `v` is classified as an in-scope page
(lines 58–69 of pdf_crawler.py). -/
def crawlEdge (fetch : String → Option (List String))
    (baseDomain basePath : String) (u v : String) : Prop :=
  ∃ hrefs, fetch u = some hrefs ∧ ∃ h ∈ hrefs, v = stripFragment h ∧
    is_pdf v = false ∧ is_valid_url baseDomain basePath v = true

/-- Reachability: `ReachIn fetch bd bp start d u` says page `u` is reachable from `start`
by a chain of `d` page links, so its BFS distance from the root is at
most `d`. -/
inductive ReachIn (fetch : String → Option (List String))
    (baseDomain basePath start : String) : Nat → String → Prop
  | refl : ReachIn fetch baseDomain basePath start 0 start
  | step {n : Nat} {u v : String} :
      ReachIn fetch baseDomain basePath start n u →
      crawlEdge fetch baseDomain basePath u v →
      ReachIn fetch baseDomain basePath start (n + 1) v

example : is_pdf "http://a/Doc.PDF" = true := by decide
example : is_pdf "http://a/doc.pdf?x=1" = false := by decide
example : (urlparse "http://a/doc.pdf?x=1").path = "/doc.pdf" := by decide
example : (urlparse "https://www.heytelecom.be/fr/aide-et-support").netloc
    = "www.heytelecom.be" := by decide
example : (urlparse "http://h/p#f").path = "/p" := by decide
example : is_valid_url "h" "/s" "http://h/s/a" = true := by decide
example : is_valid_url "h" "/s" "http://g/s/a" = false := by decide

example : (crawlRun exFetchA "http://h/s" 0 1).queue = [("http://h/s/a", 1)] := by decide
example : (crawlRun exFetchA "http://h/s" 0 2).queue = [] := by decide
example : (crawlRun exFetchA "http://h/s" 0 2).fetched = ["http://h/s"] := by decide
example : (crawlRun exFetchA "http://h/s" 0 2).visited.card = 2 := by decide
example : (crawlRun exFetchB "http://h/p#f" 1 3).fetched
    = ["http://h/p#f", "http://h/p"] := by decide
example : (finderRun exFetchC "http://h/s" 3).queue
    = ["http://h/s/c", "http://h/s/c"] := by decide
example : "http://h/s/c" ∉ (finderRun exFetchC "http://h/s" 3).visited := by decide
example : (finderRun exFetchC "http://h/s" 5).fetched
    = ["http://h/s", "http://h/s/a", "http://h/s/b", "http://h/s/c"] := by decide
example : (finderRun exFetchC "http://h/s" 5).queue = [] := by decide

/-! ## Helper lemmas -/

lemma mem_insertNew {l : List String} {x y : String} :
    y ∈ insertNew l x ↔ y ∈ l ∨ y = x := by
  unfold insertNew
  split
  · rename_i h
    exact ⟨Or.inl, fun h' => h'.elim id (fun e => e ▸ h)⟩
  · simp

lemma processHrefs_pdfs_mono (bd bp : String) :
    ∀ (hrefs : List String) (pdfs : Finset String) (links : List String),
      pdfs ⊆ (processHrefs bd bp hrefs (pdfs, links)).1 := by
  intro hrefs
  induction hrefs with
  | nil => intro pdfs links; exact Finset.Subset.refl _
  | cons a rest ih =>
    intro pdfs links
    simp only [processHrefs]
    split
    · exact (Finset.subset_insert _ _).trans (ih _ _)
    · split
      · exact ih _ _
      · exact ih _ _

lemma processHrefs_pdf_mem (bd bp : String) :
    ∀ (hrefs : List String) (pdfs : Finset String) (links : List String)
      (h : String), h ∈ hrefs → is_pdf (stripFragment h) = true →
      stripFragment h ∈ (processHrefs bd bp hrefs (pdfs, links)).1 := by
  intro hrefs
  induction hrefs with
  | nil => intro _ _ _ h; exact absurd h (List.not_mem_nil _)
  | cons a rest ih =>
    intro pdfs links h hmem hpdf
    rcases List.mem_cons.mp hmem with rfl | hmem'
    · simp only [processHrefs, hpdf, if_true]
      exact processHrefs_pdfs_mono bd bp rest _ _ (Finset.mem_insert_self _ _)
    · simp only [processHrefs]
      split
      · exact ih _ _ _ hmem' hpdf
      · split
        · exact ih _ _ _ hmem' hpdf
        · exact ih _ _ _ hmem' hpdf

lemma processHrefs_pdfs_indep (bd bp bd' bp' : String) :
    ∀ (hrefs : List String) (pdfs : Finset String) (l l' : List String),
      (processHrefs bd bp hrefs (pdfs, l)).1
        = (processHrefs bd' bp' hrefs (pdfs, l')).1 := by
  intro hrefs
  induction hrefs with
  | nil => intro _ _ _; rfl
  | cons a rest ih =>
    intro pdfs l l'
    simp only [processHrefs]
    split_ifs <;> apply ih

lemma processHrefs_links_mem (bd bp : String) :
    ∀ (hrefs : List String) (pdfs : Finset String) (l : List String)
      (x : String), x ∈ (processHrefs bd bp hrefs (pdfs, l)).2 →
      x ∈ l ∨ ∃ h, h ∈ hrefs ∧ x = stripFragment h ∧ is_pdf x = false ∧
        is_valid_url bd bp x = true := by
  intro hrefs
  induction hrefs with
  | nil => intro _ _ _ hx; exact Or.inl hx
  | cons a rest ih =>
    intro pdfs l x hx
    simp only [processHrefs] at hx
    split at hx
    · rcases ih _ _ _ hx with h | ⟨h, hh, rest'⟩
      · exact Or.inl h
      · exact Or.inr ⟨h, List.mem_cons_of_mem _ hh, rest'⟩
    · rename_i hpdf
      split at hx
      · rename_i hvalid
        rcases ih _ _ _ hx with h | ⟨h, hh, rest'⟩
        · rcases mem_insertNew.mp h with h' | rfl
          · exact Or.inl h'
          · refine Or.inr ⟨a, List.mem_cons_self _ _, rfl, ?_, hvalid⟩
            exact Bool.eq_false_iff.mpr hpdf
        · exact Or.inr ⟨h, List.mem_cons_of_mem _ hh, rest'⟩
      · rcases ih _ _ _ hx with h | ⟨h, hh, rest'⟩
        · exact Or.inl h
        · exact Or.inr ⟨h, List.mem_cons_of_mem _ hh, rest'⟩

lemma download_pdfs_append (dl : String → Except String String)
    (a b : List String) :
    download_pdfs dl (a ++ b) =
      ((download_pdfs dl a).1 ++ (download_pdfs dl b).1,
       (download_pdfs dl a).2 ++ (download_pdfs dl b).2) := by
  induction a with
  | nil => simp [download_pdfs]
  | cons u rest ih =>
    have ih1 := congrArg Prod.fst ih
    have ih2 := congrArg Prod.snd ih
    simp only [List.cons_append, download_pdfs]
    cases dl u <;> simp_all

/-! ## Claim C9 -/

/-- C9: in the ordered download batch, a failed item (`dl url = .error e`)
is recorded as that item's outcome and does not abort the rest: every
URL of the batch gets exactly one outcome, in order (first conjunct),
and around a failing item the written files and outcomes of the other
items are exactly those of the batch without it (second conjunct). -/
theorem download_failure_isolated :
    (∀ (dl : String → Except String String) (urls : List String),
      ((download_pdfs dl urls).2.map Prod.fst) = urls) ∧
    (∀ (dl : String → Except String String) (pre : List String)
      (url : String) (post : List String) (e : String),
      dl url = .error e →
      download_pdfs dl (pre ++ url :: post) =
        ((download_pdfs dl pre).1 ++ (download_pdfs dl post).1,
         (download_pdfs dl pre).2 ++
           (url, some e) :: (download_pdfs dl post).2)) := by
  constructor
  · intro dl urls
    induction urls with
    | nil => rfl
    | cons u rest ih =>
      simp only [download_pdfs]
      cases dl u <;> simp [ih]
  · intro dl pre url post e he
    rw [download_pdfs_append]
    simp [download_pdfs, he]

/-- Witness for C9 at a concrete batch: the middle URL fails, the outer
two are written, and all three get an outcome in order. -/
theorem download_failure_isolated_witness :
    ((download_pdfs exDl
        ["http://h/a.pdf", "http://h/bad.pdf", "http://h/b.pdf"]).2.map
      Prod.fst) = ["http://h/a.pdf", "http://h/bad.pdf", "http://h/b.pdf"] ∧
    download_pdfs exDl (["http://h/a.pdf"] ++ "http://h/bad.pdf" :: ["http://h/b.pdf"]) =
      ((download_pdfs exDl ["http://h/a.pdf"]).1 ++ (download_pdfs exDl ["http://h/b.pdf"]).1,
       (download_pdfs exDl ["http://h/a.pdf"]).2 ++
         ("http://h/bad.pdf", some "404") :: (download_pdfs exDl ["http://h/b.pdf"]).2) :=
  ⟨download_failure_isolated.1 exDl _,
   download_failure_isolated.2 exDl ["http://h/a.pdf"] "http://h/bad.pdf"
     ["http://h/b.pdf"] "404" rfl⟩

/-! ## Claim C6 -/

/-- C6 counterexample: `http://a/doc.pdf?x=1` has a path component that
ends (case-insensitively) with `.pdf`, yet `is_pdf` classifies it as not
a PDF — the query string does affect the decision, because `is_pdf`
tests the whole URL string, not its path component. -/
theorem is_pdf_ignores_path_counterexample :
    is_pdf "http://a/doc.pdf?x=1" = false ∧
    pyEndsWith (pyLower (urlparse "http://a/doc.pdf?x=1").path) ".pdf" = true := by
  decide

/-- C6 amended: a candidate URL is classified PDF_ASSET iff the entire
URL string, case-insensitively, ends with the literal suffix `.pdf`;
consequently components after the path do affect the decision — a
non-empty query such as `?x=1` always defeats the classification. -/
theorem is_pdf_full_string_suffix :
    (∀ s : String, is_pdf s = true ↔ ∃ t, t ++ ".pdf".data = (pyLower s).data) ∧
    (∀ s : String, is_pdf (s ++ "?x=1") = false) := by
  constructor
  · intro s
    rw [is_pdf, pyEndsWith, List.isSuffixOf_iff_suffix]
    exact Iff.rfl
  · intro s
    rw [Bool.eq_false_iff]
    intro h
    rw [is_pdf, pyEndsWith, List.isSuffixOf_iff_suffix] at h
    obtain ⟨t, ht⟩ := h
    have hlast := congrArg List.getLast? ht
    have hq : "?x=1".data = ['?', 'x', '=', '1'] := rfl
    have hp : ".pdf".data = ['.', 'p', 'd', 'f'] := rfl
    rw [hp] at hlast
    simp only [pyLower, String.data_append, hq, List.map_append] at hlast
    have h1 : (t ++ ['.', 'p', 'd', 'f']).getLast? = some 'f' := by
      simp [List.getLast?_append]
    have h2 : (s.data.map Char.toLower ++
        (['?', 'x', '=', '1'].map Char.toLower)).getLast? = some '1' := by
      simp [List.getLast?_append]
    rw [h1, h2] at hlast
    simp at hlast

/-! ## Lemmas about the crawler's enqueue loop -/

lemma enqueueNew_visited_mono (d : Nat) :
    ∀ (links : List String) (v : Finset String) (q : List (String × Nat)),
      v ⊆ (enqueueNew d links (v, q)).1 := by
  intro links
  induction links with
  | nil => intro v q; exact Finset.Subset.refl _
  | cons link rest ih =>
    intro v q
    simp only [enqueueNew]
    split
    · exact ih _ _
    · exact (Finset.subset_insert _ _).trans (ih _ _)

lemma enqueueNew_queue_mem (d : Nat) :
    ∀ (links : List String) (v : Finset String) (q : List (String × Nat))
      (p : String × Nat), p ∈ (enqueueNew d links (v, q)).2 →
      p ∈ q ∨ (p.1 ∈ links ∧ p.1 ∉ v ∧ p.2 = d + 1) := by
  intro links
  induction links with
  | nil => intro v q p hp; exact Or.inl hp
  | cons link rest ih =>
    intro v q p hp
    simp only [enqueueNew] at hp
    split at hp
    · rcases ih _ _ _ hp with h | ⟨h1, h2, h3⟩
      · exact Or.inl h
      · exact Or.inr ⟨List.mem_cons_of_mem _ h1, h2, h3⟩
    · rename_i hfresh
      rcases ih _ _ _ hp with h | ⟨h1, h2, h3⟩
      · rcases List.mem_append.mp h with h' | h'
        · exact Or.inl h'
        · rcases List.mem_singleton.mp h' with rfl
          exact Or.inr ⟨List.mem_cons_self _ _, hfresh, rfl⟩
      · refine Or.inr ⟨List.mem_cons_of_mem _ h1, fun hv => h2 ?_, h3⟩
        exact Finset.mem_insert_of_mem hv

lemma enqueueNew_card (d : Nat) :
    ∀ (links : List String) (v : Finset String) (q : List (String × Nat)),
      (enqueueNew d links (v, q)).1.card + q.length =
        v.card + (enqueueNew d links (v, q)).2.length := by
  intro links
  induction links with
  | nil => intro v q; rfl
  | cons link rest ih =>
    intro v q
    simp only [enqueueNew]
    split
    · exact ih _ _
    · rename_i hfresh
      have h := ih (insert link v) (q ++ [(link, d + 1)])
      simp only [Finset.card_insert_of_not_mem hfresh, List.length_append,
        List.length_singleton] at h
      omega

lemma enqueueNew_visited_sub (d : Nat) :
    ∀ (links : List String) (v : Finset String) (q : List (String × Nat)),
      (enqueueNew d links (v, q)).1 ⊆ v ∪ links.toFinset := by
  intro links
  induction links with
  | nil => intro v q; simp [enqueueNew]
  | cons link rest ih =>
    intro v q
    simp only [enqueueNew]
    split
    · exact (ih _ _).trans (Finset.union_subset_union_right (by
        intro x hx
        simp only [List.toFinset_cons, Finset.mem_insert]
        exact Or.inr hx))
    · refine (ih _ _).trans ?_
      intro x hx
      rcases Finset.mem_union.mp hx with hx' | hx'
      · rcases Finset.mem_insert.mp hx' with rfl | hx''
        · exact Finset.mem_union_right _ (by simp)
        · exact Finset.mem_union_left _ hx''
      · exact Finset.mem_union_right _ (by
          simp only [List.toFinset_cons, Finset.mem_insert]
          exact Or.inr hx')

lemma enqueueNew_nodup (d : Nat) :
    ∀ (links : List String) (v : Finset String) (q : List (String × Nat)),
      (q.map Prod.fst).Nodup → (∀ p ∈ q, p.1 ∈ v) →
      ((enqueueNew d links (v, q)).2.map Prod.fst).Nodup ∧
        ∀ p ∈ (enqueueNew d links (v, q)).2, p.1 ∈ (enqueueNew d links (v, q)).1 := by
  intro links
  induction links with
  | nil => intro v q h1 h2; exact ⟨h1, fun p hp => h2 p hp⟩
  | cons link rest ih =>
    intro v q h1 h2
    simp only [enqueueNew]
    split
    · exact ih _ _ h1 h2
    · rename_i hfresh
      apply ih
      · rw [List.map_append]
        simp only [List.map_cons, List.map_nil]
        rw [List.nodup_append]
        refine ⟨h1, List.nodup_singleton _, ?_⟩
        intro x hx
        simp only [List.mem_singleton]
        intro hxe
        rcases List.mem_map.mp hx with ⟨p, hp, hpx⟩
        exact hfresh (hxe ▸ hpx ▸ h2 p hp)
      · intro p hp
        rcases List.mem_append.mp hp with h' | h'
        · exact Finset.mem_insert_of_mem (h2 p h')
        · rcases List.mem_singleton.mp h' with rfl
          exact Finset.mem_insert_self _ _

/-! ## Monotonicity of the crawl state -/

lemma crawlStep_pdfs_mono (fetch : String → Option (List String))
    (bd bp : String) (m : Nat) (st : CrawlState) :
    st.pdfs ⊆ (crawlStep fetch bd bp m st).pdfs := by
  obtain ⟨v, p, q, fe⟩ := st
  cases q with
  | nil => exact Finset.Subset.refl _
  | cons hd rest =>
    obtain ⟨url, depth⟩ := hd
    simp only [crawlStep]
    split
    · exact Finset.Subset.refl _
    · cases fetch url with
      | none => exact Finset.Subset.refl _
      | some hrefs => exact processHrefs_pdfs_mono bd bp hrefs _ _

lemma crawlN_pdfs_mono (fetch : String → Option (List String))
    (bd bp : String) (m : Nat) :
    ∀ (n : Nat) (st : CrawlState), st.pdfs ⊆ (crawlN fetch bd bp m n st).pdfs := by
  intro n
  induction n with
  | zero => intro st; exact Finset.Subset.refl _
  | succ k ih =>
    intro st
    exact (crawlStep_pdfs_mono fetch bd bp m st).trans (ih _)

lemma crawlStep_visited_mono (fetch : String → Option (List String))
    (bd bp : String) (m : Nat) (st : CrawlState) :
    st.visited ⊆ (crawlStep fetch bd bp m st).visited := by
  obtain ⟨v, p, q, fe⟩ := st
  cases q with
  | nil => exact Finset.Subset.refl _
  | cons hd rest =>
    obtain ⟨url, depth⟩ := hd
    simp only [crawlStep]
    split
    · exact Finset.Subset.refl _
    · cases fetch url with
      | none => exact Finset.Subset.refl _
      | some hrefs => exact enqueueNew_visited_mono depth _ _ _

lemma crawlN_visited_mono (fetch : String → Option (List String))
    (bd bp : String) (m : Nat) :
    ∀ (n : Nat) (st : CrawlState),
      st.visited ⊆ (crawlN fetch bd bp m n st).visited := by
  intro n
  induction n with
  | zero => intro st; exact Finset.Subset.refl _
  | succ k ih =>
    intro st
    exact (crawlStep_visited_mono fetch bd bp m st).trans (ih _)

/-! ## Claim C5 -/

/-- C5: a link whose fragment-stripped URL matches the `.pdf` suffix is
always added to the PDF set (first conjunct), regardless of the scope —
the PDF component of the extraction loop is identical under any two
scopes (second conjunct) while the page component is not (third
conjunct: the same link survives under its own domain and is dropped
under another); and once collected, a PDF is never removed by the rest
of the crawl (fourth conjunct). -/
theorem pdf_collection_scope_indep :
    (∀ (bd bp : String) (pdfs : Finset String) (links hrefs : List String)
      (h : String), h ∈ hrefs → is_pdf (stripFragment h) = true →
      stripFragment h ∈ (processHrefs bd bp hrefs (pdfs, links)).1) ∧
    (∀ (bd bp bd' bp' : String) (pdfs : Finset String) (l l' hrefs : List String),
      (processHrefs bd bp hrefs (pdfs, l)).1
        = (processHrefs bd' bp' hrefs (pdfs, l')).1) ∧
    ((processHrefs "h" "" ["http://h/x"] (∅, [])).2 = ["http://h/x"] ∧
     (processHrefs "g" "" ["http://h/x"] (∅, [])).2 = []) ∧
    (∀ (fetch : String → Option (List String)) (bd bp : String)
      (m n : Nat) (st : CrawlState),
      st.pdfs ⊆ (crawlN fetch bd bp m n st).pdfs) :=
  ⟨fun bd bp pdfs links hrefs h hm hp =>
      processHrefs_pdf_mem bd bp hrefs pdfs links h hm hp,
   fun bd bp bd' bp' pdfs l l' hrefs =>
      processHrefs_pdfs_indep bd bp bd' bp' hrefs pdfs l l',
   ⟨by decide, by decide⟩,
   fun fetch bd bp m n st => crawlN_pdfs_mono fetch bd bp m n st⟩

/-- Witness for C5: the off-domain, off-path PDF `http://g/d.pdf#x` is
collected by a crawl scoped to domain `h`, path `/s`. -/
theorem pdf_collection_scope_indep_witness :
    stripFragment "http://g/d.pdf#x" ∈
      (processHrefs "h" "/s" ["http://g/d.pdf#x"] (∅, [])).1 :=
  pdf_collection_scope_indep.1 "h" "/s" ∅ [] ["http://g/d.pdf#x"]
    "http://g/d.pdf#x" (by decide) (by decide)

/-! ## The visited-set invariant of `PDFCrawler.crawl` -/

lemma crawlStep_inv (fetch : String → Option (List String)) (bd bp : String)
    (m : Nat) (st : CrawlState)
    (h1 : ∀ p ∈ st.queue, p.1 ∈ st.visited)
    (h2 : (st.queue.map Prod.fst).Nodup)
    (h3 : st.fetched.Nodup)
    (h4 : ∀ u ∈ st.fetched, u ∈ st.visited ∧ u ∉ st.queue.map Prod.fst) :
    (∀ p ∈ (crawlStep fetch bd bp m st).queue,
       p.1 ∈ (crawlStep fetch bd bp m st).visited) ∧
    ((crawlStep fetch bd bp m st).queue.map Prod.fst).Nodup ∧
    (crawlStep fetch bd bp m st).fetched.Nodup ∧
    (∀ u ∈ (crawlStep fetch bd bp m st).fetched,
       u ∈ (crawlStep fetch bd bp m st).visited ∧
       u ∉ (crawlStep fetch bd bp m st).queue.map Prod.fst) := by
  obtain ⟨v, p, q, fe⟩ := st
  cases q with
  | nil => exact ⟨h1, h2, h3, h4⟩
  | cons hd rest =>
    obtain ⟨url, depth⟩ := hd
    simp only [List.map_cons] at h2
    have hurl_v : url ∈ v := h1 (url, depth) (List.mem_cons_self _ _)
    have hrest_v : ∀ p ∈ rest, p.1 ∈ v :=
      fun p hp => h1 p (List.mem_cons_of_mem _ hp)
    have hrest_nodup : (rest.map Prod.fst).Nodup := (List.nodup_cons.mp h2).2
    have hurl_rest : url ∉ rest.map Prod.fst := (List.nodup_cons.mp h2).1
    have hurl_fe : url ∉ fe := fun hm => (h4 url hm).2 (by simp)
    simp only [crawlStep]
    split
    · refine ⟨fun p hp => hrest_v p hp, hrest_nodup, h3, ?_⟩
      intro u hu
      refine ⟨(h4 u hu).1, fun hmem => (h4 u hu).2 ?_⟩
      simp only [List.map_cons, List.mem_cons]
      exact Or.inr hmem
    · cases hfetch : fetch url with
      | none =>
        refine ⟨fun p hp => hrest_v p hp, hrest_nodup, ?_, ?_⟩
        · simp [List.nodup_append, h3, hurl_fe]
        · intro u hu
          rcases List.mem_append.mp hu with hu' | hu'
          · refine ⟨(h4 u hu').1, fun hmem => (h4 u hu').2 ?_⟩
            simp only [List.map_cons, List.mem_cons]
            exact Or.inr hmem
          · rcases List.mem_singleton.mp hu' with rfl
            exact ⟨hurl_v, hurl_rest⟩
      | some hrefs =>
        have hq := enqueueNew_nodup depth
          (processHrefs bd bp hrefs (p, [])).2 v rest hrest_nodup hrest_v
        refine ⟨fun pr hpr => hq.2 pr hpr, hq.1, ?_, ?_⟩
        · simp [List.nodup_append, h3, hurl_fe]
        · intro u hu
          rcases List.mem_append.mp hu with hu' | hu'
          · have huv : u ∈ v := (h4 u hu').1
            refine ⟨enqueueNew_visited_mono depth _ _ _ huv, ?_⟩
            intro hmem
            rcases List.mem_map.mp hmem with ⟨pr, hpr, hpru⟩
            rcases enqueueNew_queue_mem depth _ _ _ pr hpr with hin | ⟨_, hnv, _⟩
            · exact (h4 u hu').2 (by
                simp only [List.map_cons, List.mem_cons]
                exact Or.inr (hpru ▸ List.mem_map_of_mem Prod.fst hin))
            · exact hnv (hpru ▸ huv)
          · rcases List.mem_singleton.mp hu' with rfl
            refine ⟨enqueueNew_visited_mono depth _ _ _ hurl_v, ?_⟩
            intro hmem
            rcases List.mem_map.mp hmem with ⟨pr, hpr, hpru⟩
            rcases enqueueNew_queue_mem depth _ _ _ pr hpr with hin | ⟨_, hnv, _⟩
            · exact hurl_rest (hpru ▸ List.mem_map_of_mem Prod.fst hin)
            · exact hnv (hpru ▸ hurl_v)

lemma crawlN_inv (fetch : String → Option (List String)) (bd bp : String)
    (m : Nat) :
    ∀ (n : Nat) (st : CrawlState),
      (∀ p ∈ st.queue, p.1 ∈ st.visited) →
      (st.queue.map Prod.fst).Nodup →
      st.fetched.Nodup →
      (∀ u ∈ st.fetched, u ∈ st.visited ∧ u ∉ st.queue.map Prod.fst) →
      (∀ p ∈ (crawlN fetch bd bp m n st).queue,
         p.1 ∈ (crawlN fetch bd bp m n st).visited) ∧
      ((crawlN fetch bd bp m n st).queue.map Prod.fst).Nodup ∧
      (crawlN fetch bd bp m n st).fetched.Nodup ∧
      (∀ u ∈ (crawlN fetch bd bp m n st).fetched,
         u ∈ (crawlN fetch bd bp m n st).visited ∧
         u ∉ (crawlN fetch bd bp m n st).queue.map Prod.fst) := by
  intro n
  induction n with
  | zero => intro st h1 h2 h3 h4; exact ⟨h1, h2, h3, h4⟩
  | succ k ih =>
    intro st h1 h2 h3 h4
    have hs := crawlStep_inv fetch bd bp m st h1 h2 h3 h4
    exact ih _ hs.1 hs.2.1 hs.2.2.1 hs.2.2.2

/-! ## The finder fetches each URL at most once (dequeue-time check) -/

lemma finderN_fetched_nodup (fetch : String → Option (List String))
    (bd bp : String) :
    ∀ (n : Nat) (st : FinderState), st.fetched.Nodup →
      (∀ u ∈ st.fetched, u ∈ st.visited) →
      (finderN fetch bd bp n st).fetched.Nodup ∧
        ∀ u ∈ (finderN fetch bd bp n st).fetched,
          u ∈ (finderN fetch bd bp n st).visited := by
  intro n
  induction n with
  | zero => intro st h1 h2; exact ⟨h1, h2⟩
  | succ k ih =>
    intro st h1 h2
    apply ih
    all_goals
      obtain ⟨v, p, q, fe⟩ := st
      cases q with
      | nil => first
        | exact h1
        | exact h2
      | cons url rest =>
        simp only [finderStep]
        split
        · first
          | exact h1
          | exact h2
        · rename_i hnv
          have hufe : url ∉ fe := fun hm => hnv (h2 url hm)
          cases fetch url with
          | none => first
            | · simp [List.nodup_append, h1, hufe]
            | · intro u hu
                rcases List.mem_append.mp hu with hu' | hu'
                · exact Finset.mem_insert_of_mem (h2 u hu')
                · rcases List.mem_singleton.mp hu' with rfl
                  exact Finset.mem_insert_self _ _
          | some hrefs => first
            | · simp [List.nodup_append, h1, hufe]
            | · intro u hu
                rcases List.mem_append.mp hu with hu' | hu'
                · exact Finset.mem_insert_of_mem (h2 u hu')
                · rcases List.mem_singleton.mp hu' with rfl
                  exact Finset.mem_insert_self _ _

/-! ## Claim C2 -/

/-- C2 counterexample: in `find_all_pdfs`, after three loop iterations
on the diamond graph the URL `http://h/s/c` occupies the frontier twice
and is not in `visited` — URLs are not added to the visited set at
enqueue time in this crawler (visiting happens at dequeue time,
line 34 of simple_pdf_finder.py). -/
theorem finder_enqueue_twice_counterexample :
    (finderRun exFetchC "http://h/s" 3).queue
      = ["http://h/s/c", "http://h/s/c"] ∧
    "http://h/s/c" ∉ (finderRun exFetchC "http://h/s" 3).visited := by
  decide

/-- C2 amended: in every run of either crawler, each distinct URL is
passed to the page fetcher at most once (the fetch log has no
duplicates).  In `PDFCrawler.crawl` this is because URLs are marked
visited at enqueue time — no URL ever occupies the frontier twice
(second conjunct); in `find_all_pdfs` it is instead enforced by the
dequeue-time `url in visited` check, and a URL may be enqueued twice. -/
theorem fetcher_invoked_at_most_once :
    (∀ (fetch : String → Option (List String)) (bd bp : String)
       (m n : Nat) (start : String),
       (crawlN fetch bd bp m n (initCrawl start)).fetched.Nodup ∧
       ((crawlN fetch bd bp m n (initCrawl start)).queue.map Prod.fst).Nodup) ∧
    (∀ (fetch : String → Option (List String)) (bd bp : String)
       (n : Nat) (start : String),
       (finderN fetch bd bp n (initFinder start)).fetched.Nodup) := by
  constructor
  · intro fetch bd bp m n start
    have h := crawlN_inv fetch bd bp m n (initCrawl start)
      (by intro p hp; simp [initCrawl] at hp; simp [initCrawl, hp])
      (by simp [initCrawl])
      (by simp [initCrawl])
      (by simp [initCrawl])
    exact ⟨h.2.2.1, h.2.1⟩
  · intro fetch bd bp n start
    exact (finderN_fetched_nodup fetch bd bp n (initFinder start)
      (by simp [initFinder]) (by simp [initFinder])).1

/-! ## Claim C4 -/

/-- C4 counterexample: crawling the two-page graph with `max_depth = 0`,
after one loop iteration the frontier contains the pair
`(http://h/s/a, 1)` whose depth 1 exceeds `max_depth = 0` — pairs with
`depth > max_depth` ARE enqueued by `PDFCrawler.crawl`. -/
theorem depth_over_max_enqueued_counterexample :
    (crawlRun exFetchA "http://h/s" 0 1).queue = [("http://h/s/a", 1)] ∧
    (0 : Nat) < 1 := by
  decide

/-- C4 amended: the enqueue-time guarantee is only
`depth ≤ max_depth + 1`: a page fetched at depth `max_depth` has its
links enqueued at depth `max_depth + 1` (first conjunct); such pairs are
then skipped (not fetched) by the dequeue-time depth guard of line 89,
which only pops them off the frontier (second conjunct). -/
theorem queue_depth_le_max_succ :
    (∀ (fetch : String → Option (List String)) (bd bp : String)
       (m : Nat) (start : String) (n : Nat),
       ∀ p ∈ (crawlN fetch bd bp m n (initCrawl start)).queue, p.2 ≤ m + 1) ∧
    (∀ (fetch : String → Option (List String)) (bd bp : String)
       (m : Nat) (st : CrawlState) (url : String) (depth : Nat)
       (rest : List (String × Nat)),
       st.queue = (url, depth) :: rest → depth > m →
       crawlStep fetch bd bp m st = { st with queue := rest }) := by
  constructor
  · intro fetch bd bp m start n
    suffices h : ∀ (k : Nat) (st : CrawlState),
        (∀ p ∈ st.queue, p.2 ≤ m + 1) →
        ∀ p ∈ (crawlN fetch bd bp m k st).queue, p.2 ≤ m + 1 by
      apply h
      intro p hp
      simp only [initCrawl, List.mem_singleton] at hp
      simp [hp]
    intro k
    induction k with
    | zero => intro st h; exact h
    | succ j ih =>
      intro st h
      apply ih
      obtain ⟨v, p, q, fe⟩ := st
      cases q with
      | nil => exact h
      | cons hd rest =>
        obtain ⟨url, depth⟩ := hd
        have hrest : ∀ p ∈ rest, p.2 ≤ m + 1 :=
          fun p hp => h p (List.mem_cons_of_mem _ hp)
        simp only [crawlStep]
        split
        · exact hrest
        · rename_i hdep
          cases fetch url with
          | none => exact hrest
          | some hrefs =>
            intro p hp
            rcases enqueueNew_queue_mem depth _ _ _ p hp with hin | ⟨_, _, hd1⟩
            · exact hrest p hin
            · omega
  · intro fetch bd bp m st url depth rest hq hdep
    obtain ⟨v, p, q, fe⟩ := st
    simp only at hq
    subst hq
    simp [crawlStep, hdep]

/-- Witness for C4 amended, on the two-page graph with `max_depth = 0`:
the queued pair sits at depth `1 = max_depth + 1`, and the next step
only pops it. -/
theorem queue_depth_le_max_succ_witness :
    ("http://h/s/a", 1).2 ≤ 0 + 1 ∧
    crawlStep exFetchA "h" "/s" 0 (crawlRun exFetchA "http://h/s" 0 1) =
      { crawlRun exFetchA "http://h/s" 0 1 with queue := [] } :=
  ⟨queue_depth_le_max_succ.1 exFetchA (urlparse "http://h/s").netloc
      (urlparse "http://h/s").path 0 "http://h/s" 1 ("http://h/s/a", 1)
      (by decide),
   queue_depth_le_max_succ.2 exFetchA "h" "/s" 0
      (crawlRun exFetchA "http://h/s" 0 1) "http://h/s/a" 1 []
      (by decide) (by decide)⟩

/-! ## Claim C10 -/

/-- C10: on the two-page graph (root linking to one subpage) with
`max_depth = 0`, the crawl terminates with exactly one page fetched
while `visited_urls` has two elements — the link enqueued at depth
`max_depth + 1` was added to `visited_urls` (and hence to the count the
caller reports as pages scanned) but never fetched. -/
theorem visited_count_exceeds_fetched :
    (crawlRun exFetchA "http://h/s" 0 2).queue = [] ∧
    (crawlRun exFetchA "http://h/s" 0 2).fetched = ["http://h/s"] ∧
    (crawlRun exFetchA "http://h/s" 0 2).visited.card = 2 ∧
    "http://h/s/a" ∈ (crawlRun exFetchA "http://h/s" 0 2).visited := by
  decide

/-! ## Claim C3 -/

lemma crawlN_no_fetch_when_deep (fetch : String → Option (List String))
    (bd bp : String) (m : Nat) :
    ∀ (n : Nat) (st : CrawlState), (∀ p ∈ st.queue, m < p.2) →
      (crawlN fetch bd bp m n st).fetched = st.fetched := by
  intro n
  induction n with
  | zero => intro st _; rfl
  | succ k ih =>
    intro st h
    obtain ⟨v, p, q, fe⟩ := st
    cases q with
    | nil => exact ih _ h
    | cons hd rest =>
      obtain ⟨url, depth⟩ := hd
      have hdep : m < depth := h (url, depth) (List.mem_cons_self _ _)
      show (crawlN fetch bd bp m k
        (crawlStep fetch bd bp m ⟨v, p, (url, depth) :: rest, fe⟩)).fetched = fe
      simp only [crawlStep, if_pos hdep]
      exact ih _ (fun p hp => h p (List.mem_cons_of_mem _ hp))

lemma crawlN_reach (fetch : String → Option (List String))
    (bd bp : String) (m : Nat) (start : String) :
    ∀ (n : Nat) (st : CrawlState),
      (∀ p ∈ st.queue, ReachIn fetch bd bp start p.2 p.1) →
      (∀ u ∈ st.fetched, ∃ d, d ≤ m ∧ ReachIn fetch bd bp start d u) →
      ∀ u ∈ (crawlN fetch bd bp m n st).fetched,
        ∃ d, d ≤ m ∧ ReachIn fetch bd bp start d u := by
  intro n
  induction n with
  | zero => intro st _ h2; exact h2
  | succ k ih =>
    intro st h1 h2
    obtain ⟨v, p, q, fe⟩ := st
    cases q with
    | nil => exact ih _ h1 h2
    | cons hd rest =>
      obtain ⟨url, depth⟩ := hd
      have hurl : ReachIn fetch bd bp start depth url :=
        h1 (url, depth) (List.mem_cons_self _ _)
      have hrest : ∀ p ∈ rest, ReachIn fetch bd bp start p.2 p.1 :=
        fun p hp => h1 p (List.mem_cons_of_mem _ hp)
      apply ih
      all_goals simp only [crawlStep]
      all_goals split
      · exact hrest
      · rename_i hdep
        cases hfetch : fetch url with
        | none => exact hrest
        | some hrefs =>
          intro p hp
          rcases enqueueNew_queue_mem depth _ _ _ p hp with hin | ⟨hlk, _, hd1⟩
          · exact hrest p hin
          · rcases processHrefs_links_mem bd bp hrefs _ _ p.1 hlk with
              habs | ⟨h, hh, hstrip, hnp, hval⟩
            · exact absurd habs (List.not_mem_nil _)
            · rw [hd1]
              exact ReachIn.step hurl ⟨hrefs, hfetch, h, hh, hstrip, hnp, hval⟩
      · exact h2
      · rename_i hdep
        cases hfetch : fetch url with
        | none =>
          intro u hu
          rcases List.mem_append.mp hu with hu' | hu'
          · exact h2 u hu'
          · rcases List.mem_singleton.mp hu' with rfl
            exact ⟨depth, by omega, hurl⟩
        | some hrefs =>
          intro u hu
          rcases List.mem_append.mp hu with hu' | hu'
          · exact h2 u hu'
          · rcases List.mem_singleton.mp hu' with rfl
            exact ⟨depth, by omega, hurl⟩

/-- C3: with `max_depth = 0` exactly one page — the root — is fetched,
whatever the graph (first conjunct: after at least one iteration the
fetch log is exactly `[start]`, forever); and for any `max_depth` every
fetched page lies at BFS distance at most `max_depth` from the root
(second conjunct). -/
theorem depth_boundary :
    (∀ (fetch : String → Option (List String)) (bd bp : String)
       (start : String) (n : Nat), 1 ≤ n →
       (crawlN fetch bd bp 0 n (initCrawl start)).fetched = [start]) ∧
    (∀ (fetch : String → Option (List String)) (bd bp : String)
       (m : Nat) (start : String) (n : Nat),
       ∀ u ∈ (crawlN fetch bd bp m n (initCrawl start)).fetched,
         ∃ d, d ≤ m ∧ ReachIn fetch bd bp start d u) := by
  constructor
  · intro fetch bd bp start n hn
    obtain ⟨k, rfl⟩ : ∃ k, n = k + 1 := ⟨n - 1, by omega⟩
    show (crawlN fetch bd bp 0 k
      (crawlStep fetch bd bp 0 (initCrawl start))).fetched = [start]
    have hstep : crawlStep fetch bd bp 0 (initCrawl start) =
        match fetch start with
        | none => ⟨{start}, ∅, [], [start]⟩
        | some hrefs =>
          ⟨(enqueueNew 0 (processHrefs bd bp hrefs (∅, [])).2 ({start}, [])).1,
           (processHrefs bd bp hrefs (∅, [])).1,
           (enqueueNew 0 (processHrefs bd bp hrefs (∅, [])).2 ({start}, [])).2,
           [start]⟩ := by
      simp only [crawlStep, initCrawl]
      cases fetch start <;> rfl
    rw [hstep]
    cases hfetch : fetch start with
    | none =>
      rw [crawlN_no_fetch_when_deep]
      intro p hp
      exact absurd hp (List.not_mem_nil _)
    | some hrefs =>
      rw [crawlN_no_fetch_when_deep]
      intro p hp
      rcases enqueueNew_queue_mem 0 _ _ _ p hp with hin | ⟨_, _, hd1⟩
      · exact absurd hin (List.not_mem_nil _)
      · omega
  · intro fetch bd bp m start n
    apply crawlN_reach
    · intro p hp
      simp only [initCrawl, List.mem_singleton] at hp
      rw [hp]
      exact ReachIn.refl
    · intro u hu
      exact absurd hu (List.not_mem_nil _)

/-- Witness for C3 on the two-page graph: with `max_depth = 0` only the
root is fetched, and the root is reachable in 0 steps. -/
theorem depth_boundary_witness :
    (crawlN exFetchA "h" "/s" 0 2 (initCrawl "http://h/s")).fetched
      = ["http://h/s"] ∧
    ∃ d, d ≤ 0 ∧ ReachIn exFetchA "h" "/s" "http://h/s" d "http://h/s" :=
  ⟨depth_boundary.1 exFetchA "h" "/s" "http://h/s" 2 (by omega),
   depth_boundary.2 exFetchA "h" "/s" 0 "http://h/s" 2 "http://h/s"
     (by decide)⟩

/-! ## Claim C7 -/

lemma takeWhile_append_hash (l r : List Char) :
    (l ++ '#' :: r).takeWhile (fun c => c ≠ '#') =
      l.takeWhile (fun c => c ≠ '#') := by
  induction l with
  | nil => simp [List.takeWhile_cons]
  | cons c rest ih =>
    simp only [List.cons_append, List.takeWhile_cons]
    split
    · rw [ih]
    · rfl

lemma stripFragment_append_frag (u a : String) :
    stripFragment (u ++ "#" ++ a) = stripFragment u := by
  have hdata : (u ++ "#" ++ a).data = u.data ++ '#' :: a.data := by
    simp [String.data_append]
  simp only [stripFragment, hdata, takeWhile_append_hash]

/-- C7 counterexample: the start URL is stored with its fragment (lines
83–84 skip the normalization), so crawling from `http://h/p#f` on a
self-linking page fetches the same normalized node twice — once as
`http://h/p#f` and once as `http://h/p` — whereas the claim says
visiting is fragment-invariant for every URL, the start URL included. -/
theorem start_fragment_counterexample :
    (crawlRun exFetchB "http://h/p#f" 1 3).fetched
      = ["http://h/p#f", "http://h/p"] ∧
    stripFragment "http://h/p#f" = stripFragment "http://h/p" := by
  decide

/-- C7 amended: classification and visiting of extracted links are
fragment-invariant — appending any fragment to an href changes neither
its stripped form (first conjunct), nor its classification (second and
third conjuncts), nor the whole effect of the page's link loop on the
crawl state (fourth conjunct).  The start URL alone escapes this:
lines 83–84 enqueue and store it unstripped. -/
theorem link_fragment_invariance :
    (∀ u a : String, stripFragment (u ++ "#" ++ a) = stripFragment u) ∧
    (∀ u a : String,
       is_pdf (stripFragment (u ++ "#" ++ a)) = is_pdf (stripFragment u)) ∧
    (∀ (bd bp : String) (u a : String),
       is_valid_url bd bp (stripFragment (u ++ "#" ++ a))
         = is_valid_url bd bp (stripFragment u)) ∧
    (∀ (bd bp : String) (pdfs : Finset String) (links : List String)
       (h a : String) (rest : List String),
       processHrefs bd bp ((h ++ "#" ++ a) :: rest) (pdfs, links)
         = processHrefs bd bp (h :: rest) (pdfs, links)) := by
  refine ⟨stripFragment_append_frag, ?_, ?_, ?_⟩
  · intro u a
    rw [stripFragment_append_frag]
  · intro bd bp u a
    rw [stripFragment_append_frag]
  · intro bd bp pdfs links h a rest
    simp only [processHrefs, stripFragment_append_frag]

/-! ## Claim C8 -/

lemma crawlStep_queue_nil (fetch : String → Option (List String))
    (bd bp : String) (m : Nat) (st : CrawlState) (h : st.queue = []) :
    crawlStep fetch bd bp m st = st := by
  obtain ⟨v, p, q, fe⟩ := st
  simp only at h
  subst h
  rfl

lemma crawlN_queue_nil (fetch : String → Option (List String))
    (bd bp : String) (m : Nat) :
    ∀ (n : Nat) (st : CrawlState), st.queue = [] →
      crawlN fetch bd bp m n st = st := by
  intro n
  induction n with
  | zero => intro st _; rfl
  | succ k ih =>
    intro st h
    show crawlN fetch bd bp m k (crawlStep fetch bd bp m st) = st
    rw [crawlStep_queue_nil fetch bd bp m st h]
    exact ih st h

lemma finderStep_queue_nil (fetch : String → Option (List String))
    (bd bp : String) (st : FinderState) (h : st.queue = []) :
    finderStep fetch bd bp st = st := by
  obtain ⟨v, p, q, fe⟩ := st
  simp only at h
  subst h
  rfl

lemma finderN_queue_nil (fetch : String → Option (List String))
    (bd bp : String) :
    ∀ (n : Nat) (st : FinderState), st.queue = [] →
      finderN fetch bd bp n st = st := by
  intro n
  induction n with
  | zero => intro st _; rfl
  | succ k ih =>
    intro st h
    show finderN fetch bd bp k (finderStep fetch bd bp st) = st
    rw [finderStep_queue_nil fetch bd bp st h]
    exact ih st h

/-- C8: a failed fetch is absorbed by the engine.  First conjunct: when
the head page's fetch raises, one loop iteration just pops it (logging
the attempt) and the run continues with the remaining frontier,
touching neither `visited_urls` nor `pdf_urls`.  Second and third
conjuncts: when the root page's fetch fails, the whole crawl (in either
crawler) still completes, with `visited = {start_url}` and no PDFs. -/
theorem fetch_failure_isolated :
    (∀ (fetch : String → Option (List String)) (bd bp : String)
       (m : Nat) (st : CrawlState) (url : String) (depth : Nat)
       (rest : List (String × Nat)),
       st.queue = (url, depth) :: rest → depth ≤ m → fetch url = none →
       crawlStep fetch bd bp m st =
         { st with queue := rest, fetched := st.fetched ++ [url] }) ∧
    (∀ (fetch : String → Option (List String)) (baseUrl : String)
       (m n : Nat), fetch baseUrl = none → 1 ≤ n →
       (crawlRun fetch baseUrl m n).visited = {baseUrl} ∧
       (crawlRun fetch baseUrl m n).pdfs = ∅ ∧
       (crawlRun fetch baseUrl m n).queue = [] ∧
       (crawlRun fetch baseUrl m n).fetched = [baseUrl]) ∧
    (∀ (fetch : String → Option (List String)) (baseUrl : String)
       (n : Nat), fetch baseUrl = none → 1 ≤ n →
       (finderRun fetch baseUrl n).visited = {baseUrl} ∧
       (finderRun fetch baseUrl n).pdfs = ∅ ∧
       (finderRun fetch baseUrl n).queue = [] ∧
       (finderRun fetch baseUrl n).fetched = [baseUrl]) := by
  refine ⟨?_, ?_, ?_⟩
  · intro fetch bd bp m st url depth rest hq hdep hfetch
    obtain ⟨v, p, q, fe⟩ := st
    simp only at hq
    subst hq
    simp [crawlStep, hfetch, Nat.not_lt.mpr hdep]
  · intro fetch baseUrl m n hfetch hn
    obtain ⟨k, rfl⟩ : ∃ k, n = k + 1 := ⟨n - 1, by omega⟩
    have hstep : crawlStep fetch (urlparse baseUrl).netloc
        (urlparse baseUrl).path m (initCrawl baseUrl) =
        ⟨{baseUrl}, ∅, [], [baseUrl]⟩ := by
      simp [crawlStep, initCrawl, hfetch]
    have : crawlRun fetch baseUrl m (k + 1) = ⟨{baseUrl}, ∅, [], [baseUrl]⟩ := by
      show crawlN fetch (urlparse baseUrl).netloc (urlparse baseUrl).path m k
        (crawlStep fetch (urlparse baseUrl).netloc (urlparse baseUrl).path m
          (initCrawl baseUrl)) = _
      rw [hstep]
      exact crawlN_queue_nil _ _ _ _ _ _ rfl
    rw [this]
    exact ⟨rfl, rfl, rfl, rfl⟩
  · intro fetch baseUrl n hfetch hn
    obtain ⟨k, rfl⟩ : ∃ k, n = k + 1 := ⟨n - 1, by omega⟩
    have hstep : finderStep fetch (urlparse baseUrl).netloc
        (urlparse baseUrl).path (initFinder baseUrl) =
        ⟨{baseUrl}, ∅, [], [baseUrl]⟩ := by
      simp [finderStep, initFinder, hfetch]
    have : finderRun fetch baseUrl (k + 1) = ⟨{baseUrl}, ∅, [], [baseUrl]⟩ := by
      show finderN fetch (urlparse baseUrl).netloc (urlparse baseUrl).path k
        (finderStep fetch (urlparse baseUrl).netloc (urlparse baseUrl).path
          (initFinder baseUrl)) = _
      rw [hstep]
      exact finderN_queue_nil _ _ _ _ _ rfl
    rw [this]
    exact ⟨rfl, rfl, rfl, rfl⟩

/-- Witness for C8: against the everywhere-failing oracle, crawling from
the concrete root completes with only the root visited and no PDFs, in
both crawlers, and the single step pops the root off the frontier. -/
theorem fetch_failure_isolated_witness :
    (crawlStep (fun _ => none) "h" "/s" 3 (initCrawl "http://h/s") =
      ⟨{"http://h/s"}, ∅, [], ["http://h/s"]⟩) ∧
    ((crawlRun (fun _ => none) "http://h/s" 3 5).visited = {"http://h/s"} ∧
     (crawlRun (fun _ => none) "http://h/s" 3 5).pdfs = ∅ ∧
     (crawlRun (fun _ => none) "http://h/s" 3 5).queue = [] ∧
     (crawlRun (fun _ => none) "http://h/s" 3 5).fetched = ["http://h/s"]) ∧
    ((finderRun (fun _ => none) "http://h/s" 5).visited = {"http://h/s"} ∧
     (finderRun (fun _ => none) "http://h/s" 5).pdfs = ∅ ∧
     (finderRun (fun _ => none) "http://h/s" 5).queue = [] ∧
     (finderRun (fun _ => none) "http://h/s" 5).fetched = ["http://h/s"]) :=
  ⟨fetch_failure_isolated.1 (fun _ => none) "h" "/s" 3 (initCrawl "http://h/s")
      "http://h/s" 0 [] rfl (by omega) rfl,
   fetch_failure_isolated.2.1 (fun _ => none) "http://h/s" 3 5 rfl (by omega),
   fetch_failure_isolated.2.2 (fun _ => none) "http://h/s" 5 rfl (by omega)⟩

/-! ## Claim C1: termination -/

lemma enqueueNew_queue_visited (d : Nat) :
    ∀ (links : List String) (v : Finset String) (q : List (String × Nat)),
      (∀ p ∈ q, p.1 ∈ v) →
      ∀ p ∈ (enqueueNew d links (v, q)).2, p.1 ∈ (enqueueNew d links (v, q)).1 := by
  intro links
  induction links with
  | nil => intro v q h; exact h
  | cons link rest ih =>
    intro v q h
    simp only [enqueueNew]
    split
    · exact ih _ _ h
    · apply ih
      intro p hp
      rcases List.mem_append.mp hp with h' | h'
      · exact Finset.mem_insert_of_mem (h p h')
      · rcases List.mem_singleton.mp h' with rfl
        exact Finset.mem_insert_self _ _

lemma crawlN_terminates_aux (fetch : String → Option (List String))
    (bd bp : String) (m : Nat) (U : Finset String)
    (hU : ∀ url ∈ U, ∀ hrefs, fetch url = some hrefs →
      ∀ h ∈ hrefs, stripFragment h ∈ U) :
    ∀ (fuel : Nat) (st : CrawlState),
      st.visited ⊆ U → (∀ p ∈ st.queue, p.1 ∈ st.visited) →
      st.queue.length + (U.card - st.visited.card) ≤ fuel →
      (crawlN fetch bd bp m fuel st).queue = [] := by
  intro fuel
  induction fuel with
  | zero =>
    intro st _ _ hb
    have : st.queue.length = 0 := by omega
    exact List.length_eq_zero.mp this
  | succ k ih =>
    intro st hv hq hb
    obtain ⟨v, p, q, fe⟩ := st
    cases q with
    | nil =>
      rw [crawlN_queue_nil fetch bd bp m (k + 1) ⟨v, p, [], fe⟩ rfl]
    | cons hd rest =>
      obtain ⟨url, depth⟩ := hd
      have hurl_v : url ∈ v := hq (url, depth) (List.mem_cons_self _ _)
      have hrest_v : ∀ p ∈ rest, p.1 ∈ v :=
        fun p hp => hq p (List.mem_cons_of_mem _ hp)
      simp only [List.length_cons] at hb
      show (crawlN fetch bd bp m k
        (crawlStep fetch bd bp m ⟨v, p, (url, depth) :: rest, fe⟩)).queue = []
      simp only [crawlStep]
      split
      · exact ih _ hv hrest_v (by simp only; omega)
      · cases hfetch : fetch url with
        | none => exact ih _ hv hrest_v (by simp only; omega)
        | some hrefs =>
          have hlinks_U : ∀ x ∈ (processHrefs bd bp hrefs (p, [])).2, x ∈ U := by
            intro x hx
            rcases processHrefs_links_mem bd bp hrefs _ _ x hx with
              habs | ⟨h, hh, hstrip, _, _⟩
            · exact absurd habs (List.not_mem_nil _)
            · exact hstrip ▸ hU url (hv hurl_v) hrefs hfetch h hh
          have hv' : (enqueueNew depth (processHrefs bd bp hrefs (p, [])).2
              (v, rest)).1 ⊆ U := by
            refine (enqueueNew_visited_sub depth _ _ _).trans ?_
            intro x hx
            rcases Finset.mem_union.mp hx with hx' | hx'
            · exact hv hx'
            · exact hlinks_U x (List.mem_toFinset.mp hx')
          apply ih
          · exact hv'
          · exact enqueueNew_queue_visited depth _ _ _ hrest_v
          · have hcard := enqueueNew_card depth
              (processHrefs bd bp hrefs (p, [])).2 v rest
            have hle1 : (enqueueNew depth (processHrefs bd bp hrefs (p, [])).2
                (v, rest)).1.card ≤ U.card := Finset.card_le_card hv'
            have hle2 : v.card ≤ (enqueueNew depth
                (processHrefs bd bp hrefs (p, [])).2 (v, rest)).1.card :=
              Finset.card_le_card (enqueueNew_visited_mono depth _ _ _)
            simp only
            omega

lemma finderHrefs_queue_len (bd bp : String) (vis : Finset String) :
    ∀ (hrefs : List String) (pdfs : Finset String) (q : List String),
      (finderHrefs bd bp vis hrefs (pdfs, q)).2.length ≤ q.length + hrefs.length := by
  intro hrefs
  induction hrefs with
  | nil => intro pdfs q; simp [finderHrefs]
  | cons a rest ih =>
    intro pdfs q
    simp only [finderHrefs, List.length_cons]
    split
    · have := ih (insert (stripFragment a) pdfs) q
      omega
    · split
      · have := ih pdfs (q ++ [stripFragment a])
        simp only [List.length_append, List.length_singleton] at this
        omega
      · have := ih pdfs q
        omega

lemma finderHrefs_queue_mem (bd bp : String) (vis : Finset String) :
    ∀ (hrefs : List String) (pdfs : Finset String) (q : List String)
      (x : String), x ∈ (finderHrefs bd bp vis hrefs (pdfs, q)).2 →
      x ∈ q ∨ ∃ h, h ∈ hrefs ∧ x = stripFragment h := by
  intro hrefs
  induction hrefs with
  | nil => intro pdfs q x hx; exact Or.inl hx
  | cons a rest ih =>
    intro pdfs q x hx
    simp only [finderHrefs] at hx
    split at hx
    · rcases ih _ _ _ hx with h | ⟨h, hh, he⟩
      · exact Or.inl h
      · exact Or.inr ⟨h, List.mem_cons_of_mem _ hh, he⟩
    · split at hx
      · rcases ih _ _ _ hx with h | ⟨h, hh, he⟩
        · rcases List.mem_append.mp h with h' | h'
          · exact Or.inl h'
          · rcases List.mem_singleton.mp h' with rfl
            exact Or.inr ⟨a, List.mem_cons_self _ _, rfl⟩
        · exact Or.inr ⟨h, List.mem_cons_of_mem _ hh, he⟩
      · rcases ih _ _ _ hx with h | ⟨h, hh, he⟩
        · exact Or.inl h
        · exact Or.inr ⟨h, List.mem_cons_of_mem _ hh, he⟩

lemma finderN_terminates_aux (fetch : String → Option (List String))
    (bd bp : String) (U : Finset String) (B : Nat)
    (hU : ∀ url ∈ U, ∀ hrefs, fetch url = some hrefs →
      ∀ h ∈ hrefs, stripFragment h ∈ U)
    (hB : ∀ url ∈ U, ∀ hrefs, fetch url = some hrefs → hrefs.length ≤ B) :
    ∀ (fuel : Nat) (st : FinderState),
      st.visited ⊆ U → (∀ u ∈ st.queue, u ∈ U) →
      st.queue.length + (U.card - st.visited.card) * (B + 1) ≤ fuel →
      (finderN fetch bd bp fuel st).queue = [] := by
  intro fuel
  induction fuel with
  | zero =>
    intro st _ _ hb
    have : st.queue.length = 0 := by omega
    exact List.length_eq_zero.mp this
  | succ k ih =>
    intro st hv hq hb
    obtain ⟨v, p, q, fe⟩ := st
    cases q with
    | nil =>
      rw [finderN_queue_nil fetch bd bp (k + 1) ⟨v, p, [], fe⟩ rfl]
    | cons url rest =>
      have hurl_U : url ∈ U := hq url (List.mem_cons_self _ _)
      have hrest_U : ∀ u ∈ rest, u ∈ U :=
        fun u hu => hq u (List.mem_cons_of_mem _ hu)
      simp only [List.length_cons] at hb
      show (finderN fetch bd bp k
        (finderStep fetch bd bp ⟨v, p, url :: rest, fe⟩)).queue = []
      simp only [finderStep]
      split
      · exact ih _ hv hrest_U (by simp only; omega)
      · rename_i hnv
        have hins : insert url v ⊆ U := Finset.insert_subset hurl_U hv
        have hcard : (insert url v).card = v.card + 1 :=
          Finset.card_insert_of_not_mem hnv
        have hvle : (insert url v).card ≤ U.card := Finset.card_le_card hins
        have hsplit : (U.card - v.card) * (B + 1)
            = (U.card - (insert url v).card) * (B + 1) + (B + 1) := by
          have h1 : U.card - v.card = (U.card - (insert url v).card) + 1 := by
            omega
          rw [h1]
          ring
        cases hfetch : fetch url with
        | none =>
          apply ih _ hins hrest_U
          simp only
          omega
        | some hrefs =>
          have hlen : (finderHrefs bd bp (insert url v) hrefs (p, rest)).2.length
              ≤ rest.length + hrefs.length := finderHrefs_queue_len bd bp _ hrefs p rest
          have hBle : hrefs.length ≤ B := hB url hurl_U hrefs hfetch
          apply ih _ hins
          · intro u hu
            rcases finderHrefs_queue_mem bd bp _ hrefs _ _ u hu with
              h' | ⟨h, hh, he⟩
            · exact hrest_U u h'
            · exact he ▸ hU url hurl_U hrefs hfetch h hh
          · simp only
            omega

/-- C1: over any finite web graph — a finite URL universe `U` containing
the start URL and closed under link extraction, with at most `B` anchors
per page — and any `max_depth`, both crawl loops drain their frontier:
after the stated number of iterations the queue is empty and the loop
has exited. -/
theorem crawl_terminates (fetch : String → Option (List String))
    (baseUrl : String) (m : Nat) (U : Finset String) (B : Nat)
    (hstart : baseUrl ∈ U)
    (hU : ∀ url ∈ U, ∀ hrefs, fetch url = some hrefs →
      ∀ h ∈ hrefs, stripFragment h ∈ U)
    (hB : ∀ url ∈ U, ∀ hrefs, fetch url = some hrefs → hrefs.length ≤ B) :
    (crawlRun fetch baseUrl m (U.card + 1)).queue = [] ∧
    (finderRun fetch baseUrl (U.card * (B + 1) + 1)).queue = [] := by
  have hUpos : 1 ≤ U.card := Finset.card_pos.mpr ⟨baseUrl, hstart⟩
  constructor
  · show (crawlN fetch (urlparse baseUrl).netloc (urlparse baseUrl).path m
      (U.card + 1) (initCrawl baseUrl)).queue = []
    apply crawlN_terminates_aux _ _ _ _ U hU
    · simp [initCrawl, Finset.singleton_subset_iff, hstart]
    · intro p hp
      simp only [initCrawl, List.mem_singleton] at hp
      simp [initCrawl, hp]
    · simp only [initCrawl, List.length_singleton, Finset.card_singleton]
      omega
  · show (finderN fetch (urlparse baseUrl).netloc (urlparse baseUrl).path
      (U.card * (B + 1) + 1) (initFinder baseUrl)).queue = []
    apply finderN_terminates_aux _ _ _ U B hU hB
    · simp [initFinder]
    · intro u hu
      simp only [initFinder, List.mem_singleton] at hu
      simp [hu, hstart]
    · simp only [initFinder, List.length_singleton, Finset.card_empty,
        Nat.sub_zero]
      omega

/-- Witness for C1 on the two-page graph: the universe
`{http://h/s, http://h/s/a}` is closed under the links of `exFetchA`,
each page has at most one anchor, and both crawls drain their queue
within the stated fuel. -/
theorem crawl_terminates_witness :
    (crawlRun exFetchA "http://h/s" 0
      (({"http://h/s", "http://h/s/a"} : Finset String).card + 1)).queue = [] ∧
    (finderRun exFetchA "http://h/s"
      (({"http://h/s", "http://h/s/a"} : Finset String).card * (1 + 1) + 1)).queue
        = [] :=
  crawl_terminates exFetchA "http://h/s" 0 {"http://h/s", "http://h/s/a"} 1
    (by decide)
    (by
      intro url hu hrefs hf hx hh
      fin_cases hu
      · rw [show exFetchA "http://h/s" = some ["http://h/s/a"] from rfl] at hf
        injection hf with hf'
        subst hf'
        rcases List.mem_singleton.mp hh with rfl
        decide
      · rw [show exFetchA "http://h/s/a" = some [] from rfl] at hf
        injection hf with hf'
        subst hf'
        exact absurd hh (List.not_mem_nil _))
    (by
      intro url hu hrefs hf
      fin_cases hu
      · rw [show exFetchA "http://h/s" = some ["http://h/s/a"] from rfl] at hf
        injection hf with hf'
        subst hf'
        decide
      · rw [show exFetchA "http://h/s/a" = some [] from rfl] at hf
        injection hf with hf'
        subst hf'
        decide)
